import Mathlib

/-!
A verification development for the core of the `ozzo-routing` HTTP router.

The Go sources are shallowly embedded: pure functions become Lean functions on
`String` / `List Char`, the mutable request context becomes explicit state
passing, Go's `error` results become `Option` values (`none` = `nil`).
Components of the repository whose implementation file is absent from the
snapshot (the radix-trie `store`, whose behaviour is fixed by the spec and by
`TestStoreGet`/`TestStoreAdd`) are modelled from the specification, as marked
in their doc comments.
-/

namespace Ozzo

/-! ## Request-path normalization (`Router.normalizeRequestPath`, router.go) -/

/-- The scanning loop of `normalizeRequestPath`: Go's
`for i := len(path) - 2; i > 0; i-- { if path[i] != '/' { return path[0 : i+1] } }`
followed by `return path[0:1]`.  The argument is the current loop index `i`;
`i = 0` means the loop has terminated without returning. -/
def normScan (path : List Char) : Nat → List Char
  | 0 => path.take 1
  | i + 1 => if path.getD (i + 1) ' ' ≠ '/' then path.take (i + 2) else normScan path i

/-- `Router.normalizeRequestPath` (router.go): when `IgnoreTrailingSlash` is set
and the path has length > 1 and ends in `'/'`, scan backwards for the last
non-slash character and keep everything up to it; if everything after the first
character is a slash, keep only the first character. -/
def normalizeRequestPath (ignoreTrailingSlash : Bool) (path : String) : String :=
  if ignoreTrailingSlash = true ∧ 1 < path.length ∧ path.data.getLast? = some '/' then
    String.mk (normScan path.data (path.data.length - 2))
  else path

/-- What the claim's words describe: removal of all trailing `'/'` characters. -/
def trimAllTrailingSlashes (path : String) : String :=
  String.mk ((path.data.reverse.dropWhile (· = '/')).reverse)

/-! ## HTTP errors (error.go) and the default error translator (router.go) -/

/-- `httpError` (error.go): an HTTP status code together with a message.
`error.go` names the status accessor `Code`; `router.go` and the tests call it
`StatusCode` (a newer revision of the same file).  Here the accessors are the
projections `status` and `message`. -/
structure HTTPErr where
  status : Nat
  message : String
deriving DecidableEq

/-- A Go `error` value reaching `Router.handleError`: either the repository's
`*httpError` or any other error, identified by its `Error()` text. -/
inductive GoError where
  | http (e : HTTPErr)
  | generic (text : String)
deriving DecidableEq

/-- `(*httpError).Error()` returns the message; a generic error is identified
by its text. -/
def GoError.errorText : GoError → String
  | .http e => e.message
  | .generic t => t

/-- Models `net/http.StatusText` (standard library, external to the repository):
the standard reason phrase for a status code, `""` for unknown codes.  The table
is restricted to the codes exercised by the repository and its tests. -/
def statusText (status : Nat) : String :=
  if status = 200 then "OK"
  else if status = 400 then "Bad Request"
  else if status = 401 then "Unauthorized"
  else if status = 404 then "Not Found"
  else if status = 405 then "Method Not Allowed"
  else if status = 500 then "Internal Server Error"
  else ""

/-- `NewHTTPError` (error.go): the variadic `message ...string` parameter is a
list; with no message the text comes from `http.StatusText(status)`, otherwise
from the first message argument. -/
def NewHTTPError (status : Nat) (message : List String) : HTTPErr :=
  match message with
  | [] => ⟨status, statusText status⟩
  | m :: _ => ⟨status, m⟩

/-- The response as far as the error translator is concerned: the status code
written by `WriteHeader` (`none` = not written, the transport defaults to 200)
and the body. -/
structure MResponse where
  headers : List (String × String)
  status : Option Nat
  body : String
deriving DecidableEq

/-- Models `net/http.Error` (standard library, external to the repository):
writes the status code and the given text as body.  The trailing newline and
the `Content-Type` header set by the real function are transport formatting
outside the repository and are elided. -/
def httpPkgError (res : MResponse) (msg : String) (status : Nat) : MResponse :=
  { res with status := some status, body := msg }

/-- `Router.handleError` (router.go): an `HTTPError` is written with its own
status and `Error()` text; any other error is written with status 500 and its
text. -/
def handleError (res : MResponse) (err : GoError) : MResponse :=
  match err with
  | .http e => httpPkgError res (GoError.errorText (.http e)) e.status
  | .generic t => httpPkgError res (GoError.errorText (.generic t)) 500

/-! ## The per-method store

Modelled from the spec: the file `store.go` implementing the radix trie is not
in the snapshot (only its tests `TestStoreAdd`/`TestStoreGet` are), so the
store is modelled at the spec's observable level: a collection of data-bearing
nodes, each carrying a reconstructed pattern and an insertion `order`.
`Add` attaches data under a pattern, assigning `order := ++globalCounter`; a
re-registration of an existing pattern does not override ("first insertion wins
on duplicate ... priority is insertion order on the *first* attach").
`Get` returns the data of the smallest-`order` node whose pattern matches the
path.  Patterns are segment lists per the spec's pattern syntax: literal runs,
`<name>` parameters (maximal non-empty run of non-`/` characters), and the
trailing wildcard `<name:.*>`.  Parameters constrained by other regular
expressions are outside this model. -/

inductive Segment where
  /-- A literal byte run, matched byte-for-byte. -/
  | lit (s : String)
  /-- `<name>`: matches the maximal non-empty run of non-`/` characters. -/
  | param (name : String)
  /-- `<name:.*>` (also spelled by a trailing `*`): a wildcard tail matching
  any remainder of the path. -/
  | wildcard (name : String)
deriving DecidableEq

/-- A route pattern, tokenized into segments. -/
abbrev Pattern := List Segment

/-- Modelled from the spec: matching a pattern against a path, capturing the
`(name, value)` pairs positionally; `none` when the pattern does not match. -/
def matchCapture : Pattern → List Char → Option (List (String × String))
  | [], cs => if cs.isEmpty then some [] else none
  | .lit s :: rest, cs =>
      if s.data.isPrefixOf cs then matchCapture rest (cs.drop s.data.length) else none
  | .param n :: rest, cs =>
      let v := cs.takeWhile (· ≠ '/')
      if v.isEmpty then none
      else (matchCapture rest (cs.drop v.length)).map (fun ps => (n, String.mk v) :: ps)
  | .wildcard n :: rest, cs =>
      if rest.isEmpty then some [(n, String.mk cs)] else none

/-- A data-bearing node of the store: reconstructed pattern, attached data and
insertion order.  `data` stands for the opaque `interface{}` payload (handler
lists in the router, numbers in the store tests). -/
structure StoreNode where
  pattern : Pattern
  data : Nat
  order : Nat
deriving DecidableEq

/-- Modelled from the spec: the observable state of one per-method store. -/
structure MStore where
  nodes : List StoreNode
  count : Nat
deriving DecidableEq

def MStore.empty : MStore := ⟨[], 0⟩

/-- Modelled from the spec: `store.Add`.  The global insertion counter is
incremented on every call; data is attached only if the pattern has no
data-bearing node yet (first attach wins). -/
def MStore.add (s : MStore) (p : Pattern) (d : Nat) : MStore :=
  let cnt := s.count + 1
  if s.nodes.any (fun n => n.pattern = p) then { s with count := cnt }
  else { nodes := s.nodes ++ [⟨p, d, cnt⟩], count := cnt }

/-- Add a whole list of `(pattern, data)` registrations in order. -/
def MStore.addAll (s : MStore) (ps : List (Pattern × Nat)) : MStore :=
  ps.foldl (fun st pd => st.add pd.1 pd.2) s

/-- Whether a node's pattern matches the path. -/
def nodeMatches (path : String) (n : StoreNode) : Bool :=
  (matchCapture n.pattern path.data).isSome

/-- One step of the candidate scan: keep the matching node of smaller
insertion order. -/
def pickBest (path : String) (best : Option StoreNode) (n : StoreNode) : Option StoreNode :=
  if (matchCapture n.pattern path.data).isSome then
    match best with
    | none => some n
    | some b => if n.order < b.order then some n else some b
  else best

/-- Modelled from the spec: the candidate selection of `store.Get` — among the
data-bearing nodes whose pattern matches the path, the one with the smallest
`order` (the first inserted). -/
def MStore.getBest (s : MStore) (path : String) : Option StoreNode :=
  s.nodes.foldl (pickBest path) none

/-- The data component of `store.Get`. -/
def MStore.getData (s : MStore) (path : String) : Option Nat :=
  (s.getBest path).map (·.data)

/-- Modelled from the spec: `store.Get` in full — data, parameter names and
captured parameter values. -/
def MStore.getFull (s : MStore) (path : String) : Option Nat × List String × List String :=
  match s.getBest path with
  | none => (none, [], [])
  | some n =>
      match matchCapture n.pattern path.data with
      | some caps => (some n.data, caps.map Prod.fst, caps.map Prod.snd)
      | none => (none, [], [])

/-! ## URL escaping (`net/url`, standard library collaborators) -/

/-- Hex digit for the upper-case percent-encoding used by `net/url`. -/
def hexUpper (n : Nat) : Char :=
  if n < 10 then Char.ofNat (48 + n) else Char.ofNat (55 + n)

/-- Models `net/url.QueryEscape` on one character: alphanumerics and
`-`, `_`, `.`, `~` are kept, a space becomes `+`, everything else becomes
`%XX` (bytes of non-ASCII characters are beyond this character-level model). -/
def queryEscapeChar (c : Char) : List Char :=
  if (('a' ≤ c ∧ c ≤ 'z') ∨ ('A' ≤ c ∧ c ≤ 'Z') ∨ ('0' ≤ c ∧ c ≤ '9'))
      ∨ c = '-' ∨ c = '_' ∨ c = '.' ∨ c = '~' then [c]
  else if c = ' ' then ['+']
  else ['%', hexUpper (c.toNat / 16 % 16), hexUpper (c.toNat % 16)]

/-- Models `net/url.QueryEscape` (standard library, external). -/
def queryEscape (s : String) : String :=
  String.mk (s.data.flatMap queryEscapeChar)

/-- Value of a hex digit, `none` for a non-hex character
(`net/url`'s `ishex`/`unhex`). -/
def unhex (c : Char) : Option Nat :=
  if '0' ≤ c ∧ c ≤ '9' then some (c.toNat - 48)
  else if 'a' ≤ c ∧ c ≤ 'f' then some (c.toNat - 87)
  else if 'A' ≤ c ∧ c ≤ 'F' then some (c.toNat - 55)
  else none

/-- Models the scanning core of `net/url.QueryUnescape`: `%XX` becomes the
character with that code, `+` becomes a space, a malformed escape is an error
(`none`). -/
def queryUnescapeCore : List Char → Option (List Char)
  | [] => some []
  | '%' :: a :: b :: rest =>
      match unhex a, unhex b with
      | some x, some y => (queryUnescapeCore rest).map (fun cs => Char.ofNat (16 * x + y) :: cs)
      | _, _ => none
  | '%' :: _ => none
  | '+' :: rest => (queryUnescapeCore rest).map (fun cs => ' ' :: cs)
  | c :: rest => (queryUnescapeCore rest).map (fun cs => c :: cs)

/-- `url.QueryUnescape` as used by `Router.ServeHTTP` (router.go):
`c.pvalues[i], _ = url.QueryUnescape(v)` discards the error, leaving the zero
value `""` when unescaping fails. -/
def queryUnescape (s : String) : String :=
  match queryUnescapeCore s.data with
  | some cs => String.mk cs
  | none => ""

/-- What the claim's words describe: pure percent-decoding, where `+` stands
for itself.  (Written from the spec sentence, for comparison with
`queryUnescape`.) -/
def percentDecodeCore : List Char → Option (List Char)
  | [] => some []
  | '%' :: a :: b :: rest =>
      match unhex a, unhex b with
      | some x, some y => (percentDecodeCore rest).map (fun cs => Char.ofNat (16 * x + y) :: cs)
      | _, _ => none
  | '%' :: _ => none
  | c :: rest => (percentDecodeCore rest).map (fun cs => c :: cs)

/-- Pure percent-decoding of a string (claim's words); failures decode to `""`
to compare like-for-like with `queryUnescape`. -/
def percentDecode (s : String) : String :=
  match percentDecodeCore s.data with
  | some cs => String.mk cs
  | none => ""

/-! ## `Route.URL` (the `Route.URL` method of the route builder) -/

/-- `strings.Replace(s, pat, rep, -1)`: replace every non-overlapping
occurrence of `pat`, left to right.  `Route.URL` only calls this with the
non-empty pattern `"<" + name + ">"`, so the empty-pattern behaviour of the Go
function (inserting between characters) is not modelled. -/
def replaceAllAux (pat rep : List Char) : Nat → List Char → List Char
  | 0, s => s
  | fuel + 1, s =>
      match s with
      | [] => []
      | c :: cs =>
          if pat.isPrefixOf (c :: cs) then rep ++ replaceAllAux pat rep fuel ((c :: cs).drop pat.length)
          else c :: replaceAllAux pat rep fuel cs
termination_by structural fuel => fuel

def replaceAll (s pat rep : List Char) : List Char :=
  if pat = [] then s else replaceAllAux pat rep s.length s

/-- `Route.URL` (route.go): Go's
`for i := 0; i < len(pairs); i++ { name := "<"+pairs[i]+">";
value := ""; if i < len(pairs)-1 { value = url.QueryEscape(pairs[i+1]) };
s = strings.Replace(s, name, value, -1) }`.
Note the loop steps by 1: every element of `pairs` — values included — is used
as a token name, replaced by the escaped *next* element (`""` for the last).
Arguments are modelled by their `fmt.Sprint` string form. -/
def urlSubst : String → List String → String
  | s, [] => s
  | s, [x] => String.mk (replaceAll s.data ("<" ++ x ++ ">").data "".data)
  | s, x :: y :: rest =>
      urlSubst (String.mk (replaceAll s.data ("<" ++ x ++ ">").data (queryEscape y).data))
        (y :: rest)

/-- What the claim's words describe: only odd-positioned elements
(`name1, name2, …`) are tokens, each substituted by the escaped following
value.  (Written from the spec sentence, for comparison with `urlSubst`.) -/
def urlSubstSpec : String → List String → String
  | s, [] => s
  | s, [x] => String.mk (replaceAll s.data ("<" ++ x ++ ">").data "".data)
  | s, x :: y :: rest =>
      urlSubstSpec (String.mk (replaceAll s.data ("<" ++ x ++ ">").data (queryEscape y).data))
        rest

/-! ## The handler pipeline (`Context.Next` / `Context.Abort`, context.go)

The mutable per-request context is reduced to the state the pipeline touches:
the handler `index` (a Go `int`, starting at `-1`) and the response body
written so far.  Handler bodies are embedded as small command programs —
`write` (write to the response), `next` (call `c.Next()`, discarding its
result, as the repository's middleware-style handlers do), `abort`
(call `c.Abort()`) — followed by a returned error.  The interpreter takes fuel
because Go's loop need not terminate for adversarial handlers; `none` means
the fuel ran out (or a negative index was dereferenced, which panics in Go). -/

/-- A Go error result: `none` is `nil`. -/
abbrev GoErr := String

structure Ctx where
  index : Int
  body : String
deriving DecidableEq

inductive HCmd where
  | write (s : String)
  | next
  | abort
deriving DecidableEq

/-- A handler body: commands in order, then a returned error (`none` = `nil`). -/
structure HProg where
  cmds : List HCmd
  ret : Option GoErr
deriving DecidableEq

mutual

/-- Run the remaining commands of one handler body.  The fuel bounds the number
of interpreter steps (`none` = ran out); one unit is spent per command. -/
def runCmds (hs : List HProg) : Nat → List HCmd → Ctx → Option Ctx
  | 0, _, _ => none
  | _ + 1, [], c => some c
  | fuel + 1, .write s :: rest, c => runCmds hs fuel rest ⟨c.index, c.body ++ s⟩
  | fuel + 1, .abort :: rest, c => runCmds hs fuel rest ⟨(hs.length : Int), c.body⟩
  | fuel + 1, .next :: rest, c =>
      match runLoop hs fuel ⟨c.index + 1, c.body⟩ with
      | none => none
      | some (c2, _) => runCmds hs fuel rest c2
termination_by structural fuel => fuel

/-- The loop of `Context.Next` (context.go):
`for n := len(c.handlers); c.index < n; c.index++ { if err := c.handlers[c.index](c); err != nil { return err } }`.
The condition is re-evaluated on the live `c.index`, so a nested `Abort`
(or `Next`) moves the loop forward. -/
def runLoop (hs : List HProg) : Nat → Ctx → Option (Ctx × Option GoErr)
  | 0, _ => none
  | fuel + 1, c =>
      if c.index < (hs.length : Int) then
        if 0 ≤ c.index then
          match hs[c.index.toNat]? with
          | none => none
          | some p =>
              match runCmds hs fuel p.cmds c with
              | none => none
              | some c2 =>
                  match p.ret with
                  | some e => some (c2, some e)
                  | none => runLoop hs fuel ⟨c2.index + 1, c2.body⟩
        else none
      else some (c, none)
termination_by structural fuel => fuel

end

/-- `Context.Next` (context.go): `c.index++` then the loop. -/
def runNext (hs : List HProg) (fuel : Nat) (c : Ctx) : Option (Ctx × Option GoErr) :=
  runLoop hs fuel ⟨c.index + 1, c.body⟩

/-! ## Router: method-not-allowed fallback (router.go) -/

/-- The router's per-method stores, `map[string]routeStore`, as an association
list (Go map iteration order is unspecified; the handler sorts before use). -/
abbrev Stores := List (String × MStore)

/-- `Router.findAllowedMethods` (router.go): the set of methods whose store
matches the path. -/
def findAllowedMethods (stores : Stores) (path : String) : List String :=
  stores.filterMap (fun ms => if (ms.2.getData path).isSome then some ms.1 else none)

/-- Set a header value by name (`http.Header.Set`). -/
def setHeader (hdrs : List (String × String)) (name value : String) : List (String × String) :=
  (name, value) :: hdrs.filter (fun h => h.1 ≠ name)

/-- Byte-wise lexicographic string comparison, modelling Go's `sort.Strings`
order (Go compares strings byte by byte).  Written over characters, which
agrees on the ASCII method names involved. -/
def charListLeb : List Char → List Char → Bool
  | [], _ => true
  | _ :: _, [] => false
  | a :: as, b :: bs =>
      if a.toNat < b.toNat then true
      else if b.toNat < a.toNat then false
      else charListLeb as bs

/-- `strLeb a b`: `a` is at most `b` in byte-wise lexicographic order. -/
def strLeb (a b : String) : Bool :=
  charListLeb a.data b.data

/-- The sorting relation used to model `sort.Strings`. -/
def strLe (a b : String) : Prop :=
  strLeb a b = true

instance : DecidableRel strLe :=
  fun a b => inferInstanceAs (Decidable (strLeb a b = true))

instance : IsTotal String strLe := by
  constructor
  intro a b
  suffices h : ∀ as bs, charListLeb as bs = true ∨ charListLeb bs as = true by
    exact h a.data b.data
  intro as
  induction as with
  | nil => intro bs; left; rfl
  | cons x xs ih =>
      intro bs
      cases bs with
      | nil => right; rfl
      | cons y ys =>
          by_cases h1 : x.toNat < y.toNat
          · left; simp [charListLeb, h1]
          · by_cases h2 : y.toNat < x.toNat
            · right; simp [charListLeb, h2]
            · rcases ih ys with h | h
              · left; simpa [charListLeb, h1, h2] using h
              · right; simpa [charListLeb, h1, h2] using h

instance : IsTrans String strLe := by
  constructor
  intro a b c hab hbc
  suffices h : ∀ as bs cs, charListLeb as bs = true → charListLeb bs cs = true →
      charListLeb as cs = true by
    exact h a.data b.data c.data hab hbc
  intro as
  induction as with
  | nil => intro bs cs _ _; rfl
  | cons x xs ih =>
      intro bs cs hab hbc
      cases bs with
      | nil => simp [charListLeb] at hab
      | cons y ys =>
          cases cs with
          | nil => simp [charListLeb] at hbc
          | cons z zs =>
              simp only [charListLeb] at hab hbc ⊢
              by_cases h1 : x.toNat < y.toNat
              · by_cases h2 : y.toNat < z.toNat
                · rw [if_pos (by omega)]
                · rw [if_neg h2] at hbc
                  by_cases h4 : z.toNat < y.toNat
                  · rw [if_pos h4] at hbc
                    cases hbc
                  · rw [if_pos (by omega)]
              · rw [if_neg h1] at hab
                by_cases h5 : y.toNat < x.toNat
                · rw [if_pos h5] at hab
                  cases hab
                · rw [if_neg h5] at hab
                  by_cases h2 : y.toNat < z.toNat
                  · rw [if_pos (by omega)]
                  · rw [if_neg h2] at hbc
                    by_cases h4 : z.toNat < y.toNat
                    · rw [if_pos h4] at hbc
                      cases hbc
                    · rw [if_neg h4] at hbc
                      rw [if_neg (by omega), if_neg (by omega)]
                      exact ih ys zs hab hbc

/-- The outcome of running `MethodNotAllowedHandler`: the response, the
context's handler index afterwards, and the returned error. -/
structure MNAResult where
  response : MResponse
  index : Int
  err : Option GoErr
deriving DecidableEq

/-- `MethodNotAllowedHandler` (router.go).  It probes *all* per-method stores
with the request's raw `URL.Path`; when none matches it is a pass-through
(`return nil`).  Otherwise it adds `OPTIONS`, sorts the method names, sets the
`Allow` header, writes status 405 unless the request method is `OPTIONS`, and
aborts the pipeline (`c.Abort()` sets the index to the number of handlers).
The Go map of methods is modelled by deduplication followed by sorting, which
produces the same sorted sequence. -/
def methodNotAllowedHandler (stores : Stores) (reqMethod reqPath : String)
    (res : MResponse) (index : Int) (numHandlers : Nat) : MNAResult :=
  let methods := findAllowedMethods stores reqPath
  if methods.length = 0 then ⟨res, index, none⟩
  else
    let ms := (("OPTIONS" :: methods).dedup).insertionSort strLe
    let res1 := { res with headers := setHeader res.headers "Allow" (String.intercalate ", " ms) }
    let res2 := if reqMethod ≠ "OPTIONS" then { res1 with status := some 405 } else res1
    ⟨res2, (numHandlers : Int), none⟩

/-! ## Router: route registration and the context pool (router.go) -/

/-- Modelled from the spec: the return value of the missing `store.Add` — "the
exact parameter count present in the pattern (including unnamed `<:…>` slots)",
i.e. the number of `<…>` markers, counted here by their opening brackets. -/
def countParams (path : String) : Nat :=
  path.data.count '<'

/-- The trailing-asterisk rewrite of `Router.addRoute` (router.go):
`if strings.HasSuffix(path, "*") { path = path[:len(path)-1] + "<:.*>" }`.
(The one-character suffix test is expressed on the last character.) -/
def effectiveAddPath (path : String) : String :=
  if path.data.getLast? = some '*' then String.mk path.data.dropLast ++ "<:.*>" else path

/-- The `maxParams` bookkeeping of `Router.addRoute` (router.go): the path is
the group prefix concatenated with the route path; after the `*` rewrite the
store's `Add` return value bumps `maxParams` when larger. -/
def addRouteMaxParams (maxParams : Nat) (groupPrefixAndPath : String × String) : Nat :=
  let path := groupPrefixAndPath.1 ++ groupPrefixAndPath.2
  let n := countParams (effectiveAddPath path)
  if n > maxParams then n else maxParams

/-- `maxParams` after registering a list of routes on a fresh router
(`New` starts with `maxParams = 0`). -/
def routerMaxParams (routes : List (String × String)) : Nat :=
  routes.foldl addRouteMaxParams 0

/-- The parameter-value buffer of a context freshly created by the pool
(`r.pool.New` in `New`, router.go): `make([]string, r.maxParams)`. -/
def poolNewPvalues (maxParams : Nat) : List String :=
  List.replicate maxParams ""

/-! ## Router: dispatch with `UseEscapedPath` (`Router.ServeHTTP`, router.go) -/

/-- The request as seen by `ServeHTTP`: the decoded `URL.Path` and the
percent-encoded `URL.EscapedPath()`. -/
structure MRequest where
  path : String
  escapedPath : String
deriving DecidableEq

/-- The route-resolution step of `Router.ServeHTTP` (router.go): with
`UseEscapedPath` the store lookup runs on the normalized *escaped* path and
every captured value is passed through `url.QueryUnescape` (its error is
discarded); otherwise the lookup runs on the normalized decoded path. -/
def serveResolve (useEscapedPath ignoreTrailingSlash : Bool) (st : MStore)
    (req : MRequest) : Option Nat × List String × List String :=
  if useEscapedPath then
    let r := st.getFull (normalizeRequestPath ignoreTrailingSlash req.escapedPath)
    (r.1, r.2.1, r.2.2.map queryUnescape)
  else
    st.getFull (normalizeRequestPath ignoreTrailingSlash req.path)

/-- `Context.Param` (context.go): linear search over `pnames`, returning the
`pvalues` entry at the same position, `""` when the name is absent. -/
def paramLookup : List String → List String → String → String
  | [], _, _ => ""
  | n :: ns, vs, name => if n = name then vs.headD "" else paramLookup ns (vs.drop 1) name

/-! ## Remaining definitions: spec-side reference functions and test fixtures -/

/-- Trailing-slash removal on a character list. -/
def trimChars (l : List Char) : List Char :=
  (l.reverse.dropWhile (· = '/')).reverse

/-- The value `normalizeRequestPath` computes on a path that triggers the
scan: all trailing slashes are trimmed, except that the first character is
never examined, so an all-slash suffix after position 0 collapses to the first
character alone. -/
def auxTrim (l : List Char) : List Char :=
  if (l.drop 1).all (· = '/') then l.take 1 else trimChars l

/-- The registration sequence of `TestStoreGet` (static part): the same
pattern `/gopher/doc.png` is registered twice, with data 3 and later 6. -/
def gopherAdds : List (Pattern × Nat) :=
  [([.lit "/gopher/bumper.png"], 1),
   ([.lit "/gopher/bumper192x108.png"], 2),
   ([.lit "/gopher/doc.png"], 3),
   ([.lit "/gopher/bumper320x180.png"], 4),
   ([.lit "/gopher/docpage.png"], 5),
   ([.lit "/gopher/doc.png"], 6),
   ([.lit "/gopher/doc"], 7)]

/-- Handler `A` of the pipeline scenario: writes `<a>`, calls `Next`,
writes `</a>`, returns `nil`. -/
def progA : HProg := ⟨[.write "<a>", .next, .write "</a>"], none⟩

/-- Handler `B`: writes `<b/>`, calls `Abort`, returns `nil`. -/
def progB : HProg := ⟨[.write "<b/>", .abort], none⟩

/-- Handler `C`: writes `<c/>`, returns `nil`. -/
def progC : HProg := ⟨[.write "<c/>"], none⟩

/-- A straight-line handler — one response write followed by a returned
error — as used to state the pure sequencing claim about `Next`. -/
def slProg (p : String × Option GoErr) : HProg := ⟨[.write p.1], p.2⟩

/-- Reference semantics of running straight-line handlers in sequence:
the concatenated output, the first non-nil error, and the number of handlers
that returned `nil` before the run stopped. -/
def slRun : List (String × Option GoErr) → String × Option GoErr × Nat
  | [] => ("", none, 0)
  | (s, some e) :: _ => (s, some e, 0)
  | (s, none) :: rest =>
      let r := slRun rest
      (s ++ r.1, r.2.1, r.2.2 + 1)

/-- Concatenation of a list of strings, in order. -/
def concatStrs (l : List String) : String :=
  l.foldr (fun a b => a ++ b) ""

/-- Stores of the method-not-allowed scenario F: `GET /users`, `POST /users`. -/
def storesF : Stores :=
  [("GET", MStore.empty.add [.lit "/users"] 1), ("POST", MStore.empty.add [.lit "/users"] 2)]

/-- A single GET store whose only pattern carries a trailing slash; probing it
with the raw path `/users/` matches the request's *own* method. -/
def storesOwn : Stores := [("GET", MStore.empty.add [.lit "/users/"] 1)]

/-- A store with the single parametric pattern `/users/<id>`. -/
def usersStore : MStore := MStore.empty.add [.lit "/users/", .param "id"] 42

/-! ## Theorems: request-path normalization (C2) -/

lemma trimChars_append_slash (l : List Char) : trimChars (l ++ ['/']) = trimChars l := by
  simp [trimChars, List.dropWhile]

lemma trimChars_append_ne (l : List Char) (c : Char) (hc : c ≠ '/') :
    trimChars (l ++ [c]) = l ++ [c] := by
  simp [trimChars, List.dropWhile, hc]

lemma auxTrim_append_slash (l : List Char) (hl : l ≠ []) :
    auxTrim (l ++ ['/']) = auxTrim l := by
  rcases l with _ | ⟨x, xs⟩
  · exact absurd rfl hl
  · unfold auxTrim
    by_cases hall : xs.all (· = '/')
    · have h1 : ((x :: xs ++ ['/']).drop 1).all (· = '/') = true := by
        simp only [List.cons_append, List.drop_succ_cons, List.drop_zero, List.all_append]
        simp [hall]
      have h2 : ((x :: xs).drop 1).all (· = '/') = true := by simpa using hall
      rw [h1, h2]
      simp
    · have h1 : ¬ ((x :: xs ++ ['/']).drop 1).all (· = '/') = true := by
        simp only [List.cons_append, List.drop_succ_cons, List.drop_zero, List.all_append]
        simp [hall]
      have h2 : ¬ ((x :: xs).drop 1).all (· = '/') = true := by simpa using hall
      rw [if_neg h1, if_neg h2]
      exact trimChars_append_slash (x :: xs)

lemma normScan_eq_auxTrim (cs : List Char) (i : Nat) (h : i + 2 ≤ cs.length) :
    normScan cs i = auxTrim (cs.take (i + 1)) := by
  induction i with
  | zero =>
      have h1 : (cs.take 1).drop 1 = [] := by
        simp [List.drop_take]
      simp [normScan, auxTrim, h1]
  | succ i ih =>
      have hlt : i + 1 < cs.length := by omega
      have htake : cs.take (i + 2) = cs.take (i + 1) ++ [cs[i + 1]] := by
        rw [List.take_succ]
        simp [List.getElem?_eq_getElem hlt]
      have hget : cs.getD (i + 1) ' ' = cs[i + 1] := by
        rw [List.getD_eq_getElem?_getD, List.getElem?_eq_getElem hlt]
        rfl
      by_cases hc : cs[i + 1] = '/'
      · have hne : ¬ cs.getD (i + 1) ' ' ≠ '/' := by rw [hget]; simp [hc]
        have hnonempty : cs.take (i + 1) ≠ [] := by
          have : (cs.take (i + 1)).length = i + 1 := by
            simp [List.length_take]
            omega
          intro hnil
          rw [hnil] at this
          simp at this
        rw [normScan, if_neg hne, ih (by omega), htake, hc, auxTrim_append_slash _ hnonempty]
      · have hne : cs.getD (i + 1) ' ' ≠ '/' := by rw [hget]; exact hc
        rw [normScan, if_pos hne, htake]
        have hdrop : (cs.take (i + 1) ++ [cs[i + 1]]).drop 1
            = (cs.take (i + 1)).drop 1 ++ [cs[i + 1]] := by
          rcases htk : cs.take (i + 1) with _ | ⟨x, xs⟩
          · have : (cs.take (i + 1)).length = i + 1 := by
              simp [List.length_take]; omega
            rw [htk] at this
            simp at this
          · simp
        have hall : ¬ ((cs.take (i + 1) ++ [cs[i + 1]]).drop 1).all (· = '/') := by
          rw [hdrop]
          simp [hc]
        rw [auxTrim, if_neg hall, trimChars_append_ne _ _ hc]

lemma normalize_scan_case (path : String) (h1 : 1 < path.length)
    (h2 : path.data.getLast? = some '/') :
    normScan path.data (path.data.length - 2) = auxTrim path.data := by
  have hne : path.data ≠ [] := by
    intro h
    have : path.length = 0 := by simp [String.length, h]
    omega
  have hlast : path.data.getLast hne = '/' := by
    have := List.getLast?_eq_getLast path.data hne
    rw [this] at h2
    exact (Option.some_injective _ h2.symm).symm
  have hdecomp : path.data.dropLast ++ ['/'] = path.data := by
    rw [← hlast]
    exact List.dropLast_append_getLast hne
  have hlen : path.data.length = path.length := rfl
  have hlen2 : path.data.dropLast.length = path.data.length - 1 := by
    simp [List.length_dropLast]
  have htake : path.data.take (path.data.length - 2 + 1) = path.data.dropLast := by
    rw [List.dropLast_eq_take]
    congr 1
    omega
  have hdne : path.data.dropLast ≠ [] := by
    intro h
    rw [h] at hlen2
    simp at hlen2
    omega
  rw [normScan_eq_auxTrim _ _ (by omega), htake, ← auxTrim_append_slash _ hdne, hdecomp]

/-- C2: the claim as stated is false — for a path consisting solely of
slashes, the code keeps the first character instead of trimming every trailing
slash: `normalizeRequestPath true "//" = "/"`, while trimming all trailing
`'/'` characters from `"//"` (a path of length 2 > 1) yields `""`. -/
theorem claim_C2_counterexample :
    normalizeRequestPath true "//" = "/" ∧ trimAllTrailingSlashes "//" = ""
      ∧ ("/" : String) ≠ "" := by
  refine ⟨by decide, by decide, by decide⟩

/-- C2 (amended): with `IgnoreTrailingSlash = true`, a path of length > 1
ending in `'/'` has its trailing slashes trimmed, except that the first
character is always kept: when every character after the first is `'/'`, the
result is the first character alone (so the root `"/"`, and every other path
not ending in `'/'`, is unchanged, and `"/x"`, `"/x/"`, `"/x//"` all normalize
to `"/x"`). -/
theorem claim_C2_normalize_trailing_slash :
    (∀ path : String,
        normalizeRequestPath true path =
          if 1 < path.length ∧ path.data.getLast? = some '/' then
            if (path.data.drop 1).all (· = '/') then String.mk (path.data.take 1)
            else trimAllTrailingSlashes path
          else path)
      ∧ (∀ path : String, normalizeRequestPath false path = path)
      ∧ normalizeRequestPath true "/x" = "/x"
      ∧ normalizeRequestPath true "/x/" = "/x"
      ∧ normalizeRequestPath true "/x//" = "/x"
      ∧ normalizeRequestPath true "/" = "/" := by
  refine ⟨?_, ?_, by decide, by decide, by decide, by decide⟩
  · intro path
    by_cases hc : 1 < path.length ∧ path.data.getLast? = some '/'
    · rw [if_pos hc]
      unfold normalizeRequestPath
      rw [if_pos ⟨rfl, hc.1, hc.2⟩, normalize_scan_case path hc.1 hc.2]
      unfold auxTrim
      by_cases hall : (path.data.drop 1).all (· = '/')
      · rw [if_pos hall, if_pos hall]
      · rw [if_neg hall, if_neg hall]
        rfl
    · rw [if_neg hc]
      unfold normalizeRequestPath
      rw [if_neg (by tauto)]
  · intro path
    unfold normalizeRequestPath
    rw [if_neg (by simp)]

/-! ## Theorems: error translation (C6) and HTTP error construction (C10) -/

/-- C6: the default error translator writes an `HTTPError`'s own status code
with the error's message as the body text handed to the response; every other
error is written with status 500 and its `Error()` text; and an `HTTPError`'s
text form equals its message. -/
theorem claim_C6_handle_error :
    (∀ (res : MResponse) (s : Nat) (m : String),
        (handleError res (.http ⟨s, m⟩)).status = some s
          ∧ (handleError res (.http ⟨s, m⟩)).body = m)
      ∧ (∀ (res : MResponse) (t : String),
          (handleError res (.generic t)).status = some 500
            ∧ (handleError res (.generic t)).body = t)
      ∧ (∀ (s : Nat) (m : String), GoError.errorText (.http ⟨s, m⟩) = m) :=
  ⟨fun _ _ _ => ⟨rfl, rfl⟩, fun _ _ => ⟨rfl, rfl⟩, fun _ _ => rfl⟩

/-- C10: `NewHTTPError(s)` has message `http.StatusText(s)`; with explicit
messages, the first message argument is used; in both cases the status
accessor returns `s` and `Error()` returns the message.  Concretely,
`NewHTTPError(404)` carries the message `"Not Found"` (as `TestNewHttpError`
checks). -/
theorem claim_C10_new_http_error :
    (∀ s : Nat, (NewHTTPError s []).message = statusText s)
      ∧ (∀ (s : Nat) (m : String) (rest : List String),
          (NewHTTPError s (m :: rest)).message = m)
      ∧ (∀ (s : Nat) (msgs : List String), (NewHTTPError s msgs).status = s)
      ∧ (∀ (s : Nat) (msgs : List String),
          GoError.errorText (.http (NewHTTPError s msgs)) = (NewHTTPError s msgs).message)
      ∧ NewHTTPError 404 [] = ⟨404, "Not Found"⟩
      ∧ NewHTTPError 404 ["abc"] = ⟨404, "abc"⟩ := by
  refine ⟨fun s => rfl, fun s m rest => rfl, ?_, ?_, by decide, by decide⟩
  · intro s msgs
    cases msgs <;> rfl
  · intro s msgs
    cases msgs <;> rfl

/-! ## Theorems: store lookup order (C1) -/

lemma pickBest_spec (path : String) (acc : Option StoreNode) (n : StoreNode) :
    (∀ a, pickBest path acc n = some a →
        ((a = n ∧ nodeMatches path n = true) ∨ acc = some a)
          ∧ (∀ c, acc = some c → a.order ≤ c.order)
          ∧ (nodeMatches path n = true → a.order ≤ n.order))
      ∧ (pickBest path acc n = none → acc = none ∧ nodeMatches path n = false) := by
  unfold pickBest nodeMatches
  by_cases hm : (matchCapture n.pattern path.data).isSome = true
  · rw [if_pos hm]
    cases acc with
    | none =>
        dsimp only
        refine ⟨fun a ha => ?_, fun h => by cases h⟩
        cases ha
        exact ⟨Or.inl ⟨rfl, hm⟩, (fun c hc => by cases hc), (fun h2 => le_refl _)⟩
    | some c =>
        dsimp only
        by_cases hlt : n.order < c.order
        · rw [if_pos hlt]
          refine ⟨fun a ha => ?_, fun h => by cases h⟩
          cases ha
          exact ⟨Or.inl ⟨rfl, hm⟩, (fun c2 hc2 => by cases hc2; omega), (fun h2 => le_refl _)⟩
        · rw [if_neg hlt]
          refine ⟨fun a ha => ?_, fun h => by cases h⟩
          cases ha
          exact ⟨Or.inr rfl, (fun c2 hc2 => by cases hc2; exact le_refl _), (fun h2 => by omega)⟩
  · rw [if_neg hm]
    refine ⟨fun a ha => ⟨Or.inr ha, fun c hc => by rw [ha] at hc; cases hc; exact le_refl _, ?_⟩,
      fun h => ⟨h, by simpa using hm⟩⟩
    intro hmn
    exact absurd (by simpa using hmn) hm

lemma foldl_pickBest_none (path : String) :
    ∀ (nodes : List StoreNode) (acc : Option StoreNode),
      nodes.foldl (pickBest path) acc = none →
        acc = none ∧ ∀ m ∈ nodes, nodeMatches path m = false := by
  intro nodes
  induction nodes with
  | nil => intro acc h; simpa using h
  | cons n rest ih =>
      intro acc h
      rw [List.foldl_cons] at h
      obtain ⟨hacc, hrest⟩ := ih (pickBest path acc n) h
      obtain ⟨haccn, hn⟩ := (pickBest_spec path acc n).2 hacc
      refine ⟨haccn, ?_⟩
      intro m hm
      rcases List.mem_cons.mp hm with rfl | hm2
      · exact hn
      · exact hrest m hm2

lemma foldl_pickBest_some (path : String) :
    ∀ (nodes : List StoreNode) (acc : Option StoreNode) (b : StoreNode),
      nodes.foldl (pickBest path) acc = some b →
        ((b ∈ nodes ∧ nodeMatches path b = true) ∨ acc = some b)
          ∧ (∀ m ∈ nodes, nodeMatches path m = true → b.order ≤ m.order)
          ∧ (∀ a, acc = some a → b.order ≤ a.order) := by
  intro nodes
  induction nodes with
  | nil =>
      intro acc b h
      simp only [List.foldl_nil] at h
      exact ⟨Or.inr h, by simp, fun a ha => by rw [h] at ha; cases ha; exact le_refl _⟩
  | cons n rest ih =>
      intro acc b h
      rw [List.foldl_cons] at h
      obtain ⟨hsrc, hminrest, haccle⟩ := ih (pickBest path acc n) b h
      have hchain : ∀ a, acc = some a → b.order ≤ a.order := by
        intro a ha
        cases hacc2 : pickBest path acc n with
        | none =>
            obtain ⟨h1, _⟩ := (pickBest_spec path acc n).2 hacc2
            rw [h1] at ha
            cases ha
        | some c =>
            have h1 := haccle c hacc2
            have h2 := ((pickBest_spec path acc n).1 c hacc2).2.1 a ha
            omega
      have hheadle : nodeMatches path n = true → b.order ≤ n.order := by
        intro hmn
        cases hacc2 : pickBest path acc n with
        | none =>
            obtain ⟨_, h2⟩ := (pickBest_spec path acc n).2 hacc2
            rw [hmn] at h2
            cases h2
        | some c =>
            have h1 := haccle c hacc2
            have h2 := ((pickBest_spec path acc n).1 c hacc2).2.2 hmn
            omega
      refine ⟨?_, ?_, hchain⟩
      · rcases hsrc with ⟨hb, hmb⟩ | hb
        · exact Or.inl ⟨List.mem_cons_of_mem _ hb, hmb⟩
        · rcases ((pickBest_spec path acc n).1 b hb).1 with ⟨rfl, hmb⟩ | hb2
          · exact Or.inl ⟨List.mem_cons_self _ _, hmb⟩
          · exact Or.inr hb2
      · intro m hm hmm
        rcases List.mem_cons.mp hm with rfl | hm2
        · exact hheadle hmm
        · exact hminrest m hm2 hmm

/-- C1: `Get` returns the data of the data-bearing node of smallest insertion
order whose pattern matches the path (`none` exactly when no node matches);
in particular, after the `TestStoreGet` registration sequence — in which
`/gopher/doc.png` is added with data 3 and later re-added with data 6 —
`Get("/gopher/doc.png")` returns 3 (the first insertion) and
`Get("/gopher/doc")` returns 7. -/
theorem claim_C1_store_get_first_inserted :
    (∀ (s : MStore) (path : String) (d : Nat),
        s.getData path = some d →
          ∃ n, n ∈ s.nodes ∧ nodeMatches path n = true ∧ n.data = d
            ∧ ∀ m, m ∈ s.nodes → nodeMatches path m = true → n.order ≤ m.order)
      ∧ (∀ (s : MStore) (path : String),
          s.getData path = none → ∀ n, n ∈ s.nodes → nodeMatches path n = false)
      ∧ (MStore.empty.addAll gopherAdds).getData "/gopher/doc.png" = some 3
      ∧ (MStore.empty.addAll gopherAdds).getData "/gopher/doc" = some 7 := by
  refine ⟨?_, ?_, by decide, by decide⟩
  · intro s path d hd
    unfold MStore.getData at hd
    cases hb : s.getBest path with
    | none => rw [hb] at hd; simp at hd
    | some b =>
        rw [hb] at hd
        simp only [Option.map_some'] at hd
        obtain ⟨hsrc, hmin, _⟩ := foldl_pickBest_some path s.nodes none b hb
        rcases hsrc with ⟨hbmem, hbm⟩ | hcontra
        · exact ⟨b, hbmem, hbm, by simpa using hd, fun m hm hmm => hmin m hm hmm⟩
        · simp at hcontra
  · intro s path h
    unfold MStore.getData at h
    cases hb : s.getBest path with
    | none =>
        intro n hn
        obtain ⟨_, hall⟩ := foldl_pickBest_none path s.nodes none hb
        exact hall n hn
    | some b => rw [hb] at h; simp at h

/-- Witness for C1: instantiating the lookup characterization on the
`TestStoreGet` store at `"/gopher/doc.png"` and data 3. -/
theorem claim_C1_witness :
    ∃ n, n ∈ (MStore.empty.addAll gopherAdds).nodes
      ∧ nodeMatches "/gopher/doc.png" n = true ∧ n.data = 3
      ∧ ∀ m, m ∈ (MStore.empty.addAll gopherAdds).nodes →
          nodeMatches "/gopher/doc.png" m = true → n.order ≤ m.order :=
  claim_C1_store_get_first_inserted.1 (MStore.empty.addAll gopherAdds) "/gopher/doc.png" 3
    (by decide)

/-! ## Theorems: pipeline Abort semantics (C3) -/

/-- C3: on the pipeline `[A, B, C]` — `A` writes `<a>`, calls `Next`, writes
`</a>`; `B` writes `<b/>` then aborts; `C` writes `<c/>` — the outer `Next`
returns `nil` and the body is exactly `<a><b/></a>` (so `C` never ran and `A`'s
post-`Next` write did run); in general `Abort` sets the index to the number of
handlers, and any `Next` started at an index at or past the end of the handler
list exits immediately without error. -/
theorem claim_C3_abort_pipeline :
    runNext [progA, progB, progC] 20 ⟨-1, ""⟩ = some (⟨5, "<a><b/></a>"⟩, none)
      ∧ (∀ (hs : List HProg) (fuel : Nat) (rest : List HCmd) (c : Ctx),
          runCmds hs (fuel + 1) (.abort :: rest) c
            = runCmds hs fuel rest ⟨(hs.length : Int), c.body⟩)
      ∧ (∀ (hs : List HProg) (fuel : Nat) (c : Ctx), (hs.length : Int) ≤ c.index →
          runNext hs (fuel + 1) c = some (⟨c.index + 1, c.body⟩, none)) := by
  refine ⟨by decide, fun hs fuel rest c => rfl, ?_⟩
  intro hs fuel c h
  show runLoop hs (fuel + 1) ⟨c.index + 1, c.body⟩ = some (⟨c.index + 1, c.body⟩, none)
  rw [runLoop]
  rw [if_neg (by simp only; omega)]

/-- Witness for C3: the aborted-pipeline clause at a concrete context whose
index is past the (empty) handler list. -/
theorem claim_C3_witness :
    runNext ([] : List HProg) 3 ⟨0, "x"⟩ = some (⟨1, "x"⟩, none) :=
  claim_C3_abort_pipeline.2.2 [] 2 ⟨0, "x"⟩ (by decide)

/-! ## Theorems: pipeline sequencing and error propagation (C4) -/

lemma slRun_all_nil :
    ∀ (rest : List (String × Option GoErr)), (∀ p ∈ rest, p.2 = none) →
      slRun rest = (concatStrs (rest.map Prod.fst), none, rest.length) := by
  intro rest
  induction rest with
  | nil => intro _; rfl
  | cons p rest2 ih =>
      intro h
      obtain ⟨s, e⟩ := p
      have he : e = none := h (s, e) (List.mem_cons_self _ _)
      subst he
      rw [slRun]
      rw [ih (fun q hq => h q (List.mem_cons_of_mem _ hq))]
      simp [concatStrs]

lemma slRun_first_error :
    ∀ (pre2 : List (String × Option GoErr)) (s : String) (e : GoErr)
      (rest2 : List (String × Option GoErr)), (∀ p ∈ pre2, p.2 = none) →
      slRun (pre2 ++ (s, some e) :: rest2)
        = (concatStrs (pre2.map Prod.fst) ++ s, some e, pre2.length) := by
  intro pre2
  induction pre2 with
  | nil =>
      intro s e rest2 _
      simp [slRun, concatStrs]
  | cons p pre3 ih =>
      intro s e rest2 h
      obtain ⟨s0, e0⟩ := p
      have he : e0 = none := h (s0, e0) (List.mem_cons_self _ _)
      subst he
      rw [List.cons_append, slRun]
      rw [ih s e rest2 (fun q hq => h q (List.mem_cons_of_mem _ hq))]
      simp [concatStrs, String.append_assoc]

lemma runCmds_single_write (hs : List HProg) (fuel : Nat) (s : String) (c : Ctx) :
    runCmds hs (fuel + 2) [.write s] c = some ⟨c.index, c.body ++ s⟩ := rfl

lemma runLoop_straight :
    ∀ (rest pre : List (String × Option GoErr)) (b : String) (fuel : Nat),
      2 * rest.length + 1 ≤ fuel →
      runLoop ((pre ++ rest).map slProg) fuel ⟨(pre.length : Int), b⟩
        = some (⟨(pre.length : Int) + ((slRun rest).2.2 : Int), b ++ (slRun rest).1⟩,
            (slRun rest).2.1) := by
  intro rest
  induction rest with
  | nil =>
      intro pre b fuel hfuel
      obtain ⟨f, rfl⟩ : ∃ f, fuel = f + 1 := ⟨fuel - 1, by omega⟩
      rw [runLoop]
      rw [if_neg (by simp only [List.append_nil, List.length_map]; omega)]
      simp [slRun]
  | cons p rest2 ih =>
      intro pre b fuel hfuel
      obtain ⟨s, e⟩ := p
      obtain ⟨f, rfl⟩ : ∃ f, fuel = f + 1 := ⟨fuel - 1, by omega⟩
      have hlen : (pre.length : Int) < (((pre ++ (s, e) :: rest2).map slProg).length : Int) := by
        simp only [List.length_map, List.length_append, List.length_cons]
        omega
      have hget : ((pre ++ (s, e) :: rest2).map slProg)[((pre.length : Int)).toNat]?
          = some (slProg (s, e)) := by
        rw [Int.toNat_ofNat]
        rw [List.getElem?_map]
        rw [List.getElem?_append_right (le_refl pre.length)]
        simp
      obtain ⟨g, rfl⟩ : ∃ g, f = g + 2 := ⟨f - 2, by simp at hfuel; omega⟩
      rw [runLoop]
      rw [if_pos (by simpa using hlen), if_pos (by simp)]
      simp only [hget, slProg]
      rw [runCmds_single_write]
      cases e with
      | some err =>
          simp [slRun]
      | none =>
          simp only
          have hih := ih (pre ++ [(s, none)]) (b ++ s) (g + 2)
            (by simp only [List.length_cons] at hfuel; omega)
          have hre : pre ++ [(s, none)] ++ rest2 = pre ++ (s, none) :: rest2 := by simp
          rw [hre] at hih
          have hlen2 : (((pre ++ [(s, none)]).length : Nat) : Int) = (pre.length : Int) + 1 := by
            simp
          rw [hlen2] at hih
          rw [hih, slRun]
          simp only
          congr 2
          · simp only [Ctx.mk.injEq]
            constructor
            · push_cast
              ring
            · rw [String.append_assoc]

/-- C4: `Next` invokes the handlers after the current index in registered
order; the first non-nil error is returned exactly and no later handler runs
(its writes are absent from the body); when all remaining handlers return nil
the outer `Next` returns nil.  Stated over straight-line handlers (one
response write, then a returned error), with the handlers after the current
index decomposed as `rest`: the body grows by the writes of the handlers up to
and including the stopping point, in order, and the loop's final index counts
the handlers that returned nil. -/
theorem claim_C4_next_error_propagation :
    (∀ (pre rest : List (String × Option GoErr)) (b : String) (fuel : Nat),
        2 * rest.length + 1 ≤ fuel →
          runNext ((pre ++ rest).map slProg) fuel ⟨(pre.length : Int) - 1, b⟩
            = some (⟨(pre.length : Int) + ((slRun rest).2.2 : Int), b ++ (slRun rest).1⟩,
                (slRun rest).2.1))
      ∧ (∀ rest : List (String × Option GoErr), (∀ p ∈ rest, p.2 = none) →
          slRun rest = (concatStrs (rest.map Prod.fst), none, rest.length))
      ∧ (∀ (pre2 : List (String × Option GoErr)) (s : String) (e : GoErr)
            (rest2 : List (String × Option GoErr)), (∀ p ∈ pre2, p.2 = none) →
          slRun (pre2 ++ (s, some e) :: rest2)
            = (concatStrs (pre2.map Prod.fst) ++ s, some e, pre2.length)) := by
  refine ⟨?_, slRun_all_nil, slRun_first_error⟩
  intro pre rest b fuel hfuel
  show runLoop _ fuel ⟨(pre.length : Int) - 1 + 1, b⟩ = _
  have h1 : (pre.length : Int) - 1 + 1 = (pre.length : Int) := by ring
  rw [h1]
  exact runLoop_straight rest pre b fuel hfuel

/-- Witness for C4: three handlers where the second returns an error `boom` —
`Next` from a fresh context returns exactly that error, the body shows the
first two writes only, and the final index stops at the erroring handler. -/
theorem claim_C4_witness :
    runNext ([("x", none), ("y", some "boom"), ("z", none)].map slProg) 10 ⟨-1, ""⟩
      = some (⟨1, "xy"⟩, some "boom") := by
  have h := claim_C4_next_error_propagation.1 []
    [("x", none), ("y", some "boom"), ("z", none)] "" 10 (by decide)
  simp only [List.nil_append, List.length_nil, Nat.cast_zero] at h
  rw [show ((0 : Int) - 1) = (-1 : Int) by ring] at h
  rw [h]
  decide

/-! ## Theorems: method-not-allowed fallback (C5) -/

/-- C5: the claim as stated is false in one corner — the handler probes *all*
per-method stores with the raw request path, including the store of the
request's own method.  With a single `GET` store whose only pattern is
`/users/` (so that no *other* method matches the path `/users/`), a `GET`
request still receives an `Allow` header and status 405 instead of the claimed
untouched pass-through. -/
theorem claim_C5_counterexample :
    findAllowedMethods storesOwn "/users/" = ["GET"]
      ∧ (methodNotAllowedHandler storesOwn "GET" "/users/" ⟨[], none, ""⟩ (-1) 2).response
          = ⟨[("Allow", "GET, OPTIONS")], some 405, ""⟩
      ∧ (methodNotAllowedHandler storesOwn "GET" "/users/" ⟨[], none, ""⟩ (-1) 2).response
          ≠ ⟨[], none, ""⟩ := by
  refine ⟨by decide, by decide, by decide⟩

/-- C5 (amended): for every request whose probe path matches at least one
per-method store (possibly the request's own method — the probe covers all
stores), `MethodNotAllowedHandler` sets the `Allow` header to the sorted,
duplicate-free list of the matching methods plus `OPTIONS`, joined by `", "`;
it writes status 405 unless the request method is `OPTIONS` (then no status is
written) and aborts the pipeline, returning nil; when no store matches it
returns nil leaving response and index untouched, so the 404 handler runs.
Scenario F: with `GET /users` and `POST /users` registered, `PUT /users` gets
`Allow: GET, OPTIONS, POST` and 405; `OPTIONS /users` gets the same header and
no status; `GET /other` passes through. -/
theorem claim_C5_method_not_allowed :
    (∀ (stores : Stores) (reqMethod reqPath : String) (res : MResponse) (index : Int)
        (numHandlers : Nat), findAllowedMethods stores reqPath = [] →
        methodNotAllowedHandler stores reqMethod reqPath res index numHandlers
          = ⟨res, index, none⟩)
      ∧ (∀ (stores : Stores) (reqMethod reqPath : String) (res : MResponse) (index : Int)
          (numHandlers : Nat), findAllowedMethods stores reqPath ≠ [] →
          ∃ ms : List String,
            methodNotAllowedHandler stores reqMethod reqPath res index numHandlers
              = ⟨⟨("Allow", String.intercalate ", " ms)
                    :: res.headers.filter (fun h => h.1 ≠ "Allow"),
                  if reqMethod ≠ "OPTIONS" then some 405 else res.status,
                  res.body⟩, (numHandlers : Int), none⟩
              ∧ ms.Sorted strLe ∧ ms.Nodup
              ∧ (∀ m, m ∈ ms ↔ (m = "OPTIONS" ∨ m ∈ findAllowedMethods stores reqPath)))
      ∧ methodNotAllowedHandler storesF "PUT" "/users" ⟨[], none, ""⟩ (-1) 2
          = ⟨⟨[("Allow", "GET, OPTIONS, POST")], some 405, ""⟩, 2, none⟩
      ∧ methodNotAllowedHandler storesF "OPTIONS" "/users" ⟨[], none, ""⟩ (-1) 2
          = ⟨⟨[("Allow", "GET, OPTIONS, POST")], none, ""⟩, 2, none⟩
      ∧ methodNotAllowedHandler storesF "GET" "/other" ⟨[], none, ""⟩ (-1) 2
          = ⟨⟨[], none, ""⟩, -1, none⟩ := by
  refine ⟨?_, ?_, by decide, by decide, by decide⟩
  · intro stores reqMethod reqPath res index numHandlers h
    unfold methodNotAllowedHandler
    rw [h]
    rfl
  · intro stores reqMethod reqPath res index numHandlers h
    refine ⟨(("OPTIONS" :: findAllowedMethods stores reqPath).dedup).insertionSort strLe,
      ?_, ?_, ?_, ?_⟩
    · unfold methodNotAllowedHandler
      rw [if_neg (by simpa [List.length_eq_zero] using h)]
      simp only [setHeader]
      by_cases hm : reqMethod ≠ "OPTIONS"
      · rw [if_pos hm, if_pos hm]
      · rw [if_neg hm, if_neg hm]
    · exact List.sorted_insertionSort _ _
    · exact (List.perm_insertionSort _ _).nodup_iff.mpr (List.nodup_dedup _)
    · intro m
      rw [(List.perm_insertionSort strLe _).mem_iff, List.mem_dedup, List.mem_cons]

/-- Witness for C5: the amended theorem applied to scenario F's stores at the
path `/users` (matched by `GET` and `POST`), yielding the sorted `Allow` set. -/
theorem claim_C5_witness :
    ∃ ms : List String,
      methodNotAllowedHandler storesF "PUT" "/users" ⟨[], none, ""⟩ (-1) 2
        = ⟨⟨("Allow", String.intercalate ", " ms)
              :: (⟨[], none, ""⟩ : MResponse).headers.filter (fun h => h.1 ≠ "Allow"),
            if "PUT" ≠ "OPTIONS" then some 405 else (⟨[], none, ""⟩ : MResponse).status,
            (⟨[], none, ""⟩ : MResponse).body⟩, (2 : Nat), none⟩
        ∧ ms.Sorted strLe ∧ ms.Nodup
        ∧ (∀ m, m ∈ ms ↔ (m = "OPTIONS" ∨ m ∈ findAllowedMethods storesF "/users")) :=
  claim_C5_method_not_allowed.2.1 storesF "PUT" "/users" ⟨[], none, ""⟩ (-1) 2 (by decide)

/-! ## Theorems: maxParams bookkeeping and the context pool (C9) -/

lemma foldr_max_init (b : Nat) :
    ∀ (l : List Nat) (a : Nat), l.foldr max (max a b) = max b (l.foldr max a) := by
  intro l
  induction l with
  | nil => intro a; exact max_comm a b
  | cons y l ih =>
      intro a
      rw [List.foldr_cons, List.foldr_cons, ih, max_left_comm]

lemma foldl_bump_eq_foldr_max (f : String × String → Nat) :
    ∀ (l : List (String × String)) (a : Nat),
      l.foldl (fun m q => if f q > m then f q else m) a = (l.map f).foldr max a := by
  intro l
  induction l with
  | nil => intro a; rfl
  | cons x l ih =>
      intro a
      rw [List.foldl_cons, ih, List.map_cons, List.foldr_cons]
      have h : (if f x > a then f x else a) = max a (f x) := by
        by_cases h : f x > a
        · rw [if_pos h, max_eq_right (by omega)]
        · rw [if_neg h, max_eq_left (by omega)]
      rw [h, foldr_max_init]

/-- C9: after registering a list of routes (each a group prefix and a route
path), the router's `maxParams` equals the maximum, over the registered
routes, of the parameter count the store's `Add` returns for the effective
pattern (prefix ++ path, with a trailing `*` rewritten to `<:.*>`), 0 when no
route has parameters; and a context freshly created by the pool carries a
`pvalues` buffer of exactly that length. -/
theorem claim_C9_max_params_pool :
    (∀ routes : List (String × String),
        routerMaxParams routes
          = (routes.map (fun q => countParams (effectiveAddPath (q.1 ++ q.2)))).foldr max 0)
      ∧ (∀ routes : List (String × String),
          (poolNewPvalues (routerMaxParams routes)).length = routerMaxParams routes)
      ∧ routerMaxParams [("", "/users/<id>"), ("", "/all/*"), ("/a/<x>", "/<y>/<z>")] = 3
      ∧ routerMaxParams [("", "/users"), ("/admin", "/posts")] = 0 := by
  refine ⟨?_, ?_, by decide, by decide⟩
  · intro routes
    unfold routerMaxParams addRouteMaxParams
    exact foldl_bump_eq_foldr_max _ routes 0
  · intro routes
    unfold poolNewPvalues
    exact List.length_replicate _ _

/-! ## Theorems: reverse URL rendering (C7) -/

/-- C7: the claim as stated is false.  `Route.URL`'s loop steps by 1, so the
even-positioned *value* elements are also used as token names: with template
`/users/<v>` and the even-length argument list `("id", "v")`, the claim
predicts `<v>` stays (no `name_i` equals `v`), but the code also substitutes
the token of the value element `"v"` — with the empty string, as it is the
last element — producing `/users/`. -/
theorem claim_C7_counterexample :
    urlSubst "/users/<v>" ["id", "v"] = "/users/"
      ∧ urlSubstSpec "/users/<v>" ["id", "v"] = "/users/<v>"
      ∧ ("/users/" : String) ≠ "/users/<v>" := by
  refine ⟨by decide, by decide, by decide⟩

/-- C7 (amended): `Route.URL` treats *every* element of the argument list as a
token name, replacing each occurrence of `<element>` by the URL-encoded
following element (the empty string for the last element), in order.  On
even-length lists where no value element occurs as a token this is the claimed
behaviour: each `<name_i>` occurrence becomes the URL-encoded `value_i`,
values past the tokens are ignored, and tokens named by no element stay as
`<token>`. -/
theorem claim_C7_url_substitution :
    (∀ (s x y : String) (rest : List String),
        urlSubst s (x :: y :: rest)
          = urlSubst (String.mk (replaceAll s.data ("<" ++ x ++ ">").data (queryEscape y).data))
              (y :: rest))
      ∧ (∀ s x : String,
          urlSubst s [x] = String.mk (replaceAll s.data ("<" ++ x ++ ">").data []))
      ∧ (∀ s : String, urlSubst s [] = s)
      ∧ urlSubst "/admin/users/<id>/<action>/<>" ["id", "123", "action", "address"]
          = "/admin/users/123/address/<>"
      ∧ urlSubst "/admin/users/<id>/<action>/<>" ["id", "123"]
          = "/admin/users/123/<action>/<>"
      ∧ urlSubst "/admin/users/<id>/<action>/<>" ["id", "123", "action", "profile", "", "xyz/abc"]
          = "/admin/users/123/profile/xyz%2Fabc"
      ∧ urlSubst "/admin/users/<id>/<action>/<>" ["id", "123", "action", "a,<>?#"]
          = "/admin/users/123/a%2C%3C%3E%3F%23/<>" := by
  exact ⟨fun s x y rest => rfl, fun s x => rfl, fun s => rfl,
    by decide, by decide, by decide, by decide⟩

/-! ## Theorems: escaped-path matching and parameter decoding (C8) -/

/-- C8: the claim as stated is false.  With `UseEscapedPath=true` the captured
values are passed through `url.QueryUnescape`, which is not pure
percent-decoding: it also turns `+` into a space.  For the request path
`/users/a+b` (whose escaped form is the same), the route `/users/<id>`
captures `a+b` and `Param("id")` observes `"a b"`, while percent-decoding
leaves `"a+b"`. -/
theorem claim_C8_counterexample :
    serveResolve true false usersStore ⟨"/users/a+b", "/users/a+b"⟩
        = (some 42, ["id"], ["a b"])
      ∧ paramLookup ["id"] ["a b"] "id" = "a b"
      ∧ percentDecode "a+b" = "a+b"
      ∧ ("a b" : String) ≠ "a+b" := by
  refine ⟨by decide, by decide, by decide, by decide⟩

/-- C8 (amended): with `UseEscapedPath=true`, route matching is performed
against the (normalized) percent-encoded request path — the decoded path is
irrelevant — and every captured parameter value is query-unescaped
(`url.QueryUnescape`: percent-escapes decoded, `+` decoded to space, failures
decoded to `""`) before handlers observe it through `Param`; concretely,
`/users/<id>` resolves the escaped path `/users/a%2Fb` (not matched in decoded
mode) and `Param("id")` sees `a/b`. -/
theorem claim_C8_escaped_path :
    (∀ (st : MStore) (ig : Bool) (r r2 : MRequest), r.escapedPath = r2.escapedPath →
        serveResolve true ig st r = serveResolve true ig st r2)
      ∧ (∀ (st : MStore) (ig : Bool) (r : MRequest),
          serveResolve true ig st r
            = ((st.getFull (normalizeRequestPath ig r.escapedPath)).1,
               (st.getFull (normalizeRequestPath ig r.escapedPath)).2.1,
               ((st.getFull (normalizeRequestPath ig r.escapedPath)).2.2).map queryUnescape))
      ∧ (∀ (ns vs : List String) (f : String → String) (name : String),
          ns.length ≤ vs.length → name ∈ ns →
            paramLookup ns (vs.map f) name = f (paramLookup ns vs name))
      ∧ serveResolve true false usersStore ⟨"/users/a/b", "/users/a%2Fb"⟩
          = (some 42, ["id"], ["a/b"])
      ∧ serveResolve false false usersStore ⟨"/users/a/b", "/users/a%2Fb"⟩
          = (none, [], []) := by
  refine ⟨?_, ?_, ?_, by decide, by decide⟩
  · intro st ig r r2 h
    unfold serveResolve
    rw [h]
    simp
  · intro st ig r
    rfl
  · intro ns
    induction ns with
    | nil => intro vs f name _ hmem; cases hmem
    | cons n ns ih =>
        intro vs f name hlen hmem
        cases vs with
        | nil => simp at hlen
        | cons v vs2 =>
            by_cases hn : n = name
            · rw [paramLookup, if_pos hn, paramLookup, if_pos hn]
              rfl
            · rw [paramLookup, if_neg hn, paramLookup, if_neg hn]
              have h1 : ((v :: vs2).map f).drop 1 = vs2.map f := rfl
              have h2 : (v :: vs2).drop 1 = vs2 := rfl
              rw [h1, h2]
              exact ih vs2 f name (by simpa using hlen)
                (by rcases List.mem_cons.mp hmem with h | h
                    · exact absurd h.symm hn
                    · exact h)

/-- Witness for C8: the escaped-mode resolution of two requests that share the
escaped path `/users/a%2Fb` but have different decoded paths coincide. -/
theorem claim_C8_witness :
    serveResolve true false usersStore ⟨"/users/a/b", "/users/a%2Fb"⟩
      = serveResolve true false usersStore ⟨"/decoy", "/users/a%2Fb"⟩ :=
  claim_C8_escaped_path.1 usersStore false ⟨"/users/a/b", "/users/a%2Fb"⟩
    ⟨"/decoy", "/users/a%2Fb"⟩ (by decide)

end Ozzo
